import Mathlib

/-!
Verification of the "friday" voice-assistant client.

This file gives a shallow embedding of the program's core algorithms and
proves (or refutes) the specification's claims about them:

  * the wake-word detectors (`src/hooks/useWakeWord.ts`, first revision, and
    the inline detector of `src/hooks/useAgent.ts`, first revision);
  * the conversation-session event machine of `src/hooks/useAgent.ts`
    (second revision): transcript merging, tool-call batches, the playback
    scheduler, interruption and teardown;
  * the tool dispatcher of `src/services/agentFunctions.ts`;
  * the PCM/base64 codec of `src/utils/audio.ts`.

Strings are modelled as `List Char`, machine integers as `Nat`/`Int` with
explicit wrapping, audio time as `ℚ`.  JavaScript builtins used by the code
(regex `\b`, `String.prototype.trim/toLowerCase/includes/startsWith`,
`atob`/`btoa`, `Int16Array` conversion, `Date` parsing) are embedded by
their ECMAScript denotations on the (ASCII) inputs the program feeds them.
-/

/-! ## Character classes and JS string primitives -/

/-- ASCII word character: the class `\w` used by the `\b` assertion of
JavaScript regular expressions (letters, digits, underscore). -/
def isWordChar (c : Char) : Bool := c.isAlphanum || c = '_'

/-- Word-character test on an optional character; a missing character
(before the start / after the end of the string) counts as non-word. -/
def isWordOpt : Option Char → Bool
  | none => false
  | some c => isWordChar c

/-- Whitespace stripped by `String.prototype.trim` (ASCII part). -/
def isJsWs (c : Char) : Bool :=
  c = ' ' || c = '\t' || c = '\n' || c = '\r' || c = '\x0b' || c = '\x0c'

/-- `String.prototype.toLowerCase`, on the ASCII range the app uses. -/
def jsLowerChar (c : Char) : Char :=
  if 'A' ≤ c ∧ c ≤ 'Z' then Char.ofNat (c.toNat + 32) else c

/-- `toLowerCase` on a whole string (as a character list). -/
def lowerL (s : List Char) : List Char := s.map jsLowerChar

/-- `String.prototype.trim`: drop leading and trailing whitespace. -/
def trimL (s : List Char) : List Char :=
  ((s.dropWhile isJsWs).reverse.dropWhile isJsWs).reverse

/-- `String.prototype.includes`: `isSubstring w s` is true iff `w` occurs
contiguously somewhere in `s`. -/
def isSubstring (w : List Char) : List Char → Bool
  | [] => decide (w = [])
  | c :: rest => decide ((c :: rest).take w.length = w) || isSubstring w rest

/-! ## Wake-word matching (`useWakeWord.ts`, first revision)

`useWakeWord.ts` builds, for every configured phrase `w`,
`new RegExp("\\b" + escapeRegExp(w.toLowerCase()) + "\\b")` and tests it
against `transcript.trim().toLowerCase()`.  Because `escapeRegExp` escapes
every regex metacharacter, the compiled pattern matches exactly a literal
occurrence of the phrase with the JS `\b` assertion holding at both ends.
`\b` holds at a position iff exactly one of the two adjacent characters is
a word character (a position outside the string counts as non-word).  The
functions below are that denotation, scanning all start positions the way
`RegExp.prototype.test` does. -/

/-- JS `\b`: true between `prev` and `next` iff exactly one side is a word
character. -/
def jsBoundary (prev next : Option Char) : Bool := isWordOpt prev != isWordOpt next

/-- One anchor position of the pattern `\b<literal w>\b` inside `s`, where
`prev` is the character immediately before the current position: the match
succeeds here iff `w` is a prefix of `s`, `\b` holds before it, and `\b`
holds after it. -/
def wbFront (w s : List Char) (prev : Option Char) : Bool :=
  decide (s.take w.length = w)
  && jsBoundary prev s.head?
  && jsBoundary (if w.isEmpty then prev else w.getLast?) (s.drop w.length).head?

/-- Scan of `\b<literal w>\b` over all positions of `s`, threading the
previous character. -/
def wbTestFrom (w : List Char) : List Char → Option Char → Bool
  | [], prev => wbFront w [] prev
  | c :: rest, prev => wbFront w (c :: rest) prev || wbTestFrom w rest (some c)

/-- `RegExp("\\b" + escapeRegExp(w) + "\\b").test(s)`. -/
def wbTest (w s : List Char) : Bool := wbTestFrom w s none

/-- Specification-level notion: `w` occurs in `s` as a whole word at the
current position (no word character immediately before the occurrence, and
none immediately after it). -/
def wwFront (w s : List Char) (prev : Option Char) : Bool :=
  decide (s.take w.length = w)
  && !isWordOpt prev
  && !isWordOpt (s.drop w.length).head?

/-- Whole-word occurrence of `w` anywhere in `s` (scanning positions,
threading the previous character). -/
def wwOccursFrom (w : List Char) : List Char → Option Char → Bool
  | [], prev => wwFront w [] prev
  | c :: rest, prev => wwFront w (c :: rest) prev || wwOccursFrom w rest (some c)

/-- `w` occurs somewhere in `s` as a whole word. -/
def wwOccurs (w s : List Char) : Bool := wwOccursFrom w s none

/-- A phrase is `wordish` when it is nonempty and begins and ends with a
word character (every realistic wake phrase, e.g. "hey friday", is). -/
def wordish (w : List Char) : Bool :=
  match w.head?, w.getLast? with
  | some a, some b => isWordChar a && isWordChar b
  | _, _ => false

/-- The detector of `useWakeWord.ts` (first revision) applied to one
recognized transcript segment: the code lowercases each phrase, compiles
the boundary-anchored regex, and tests it against
`transcript.trim().toLowerCase()`. -/
def wakePhraseTest (w t : List Char) : Bool :=
  wbTest (lowerL w) (lowerL (trimL t))

/-- `useWakeWord.ts` activation on a recognized transcript `t`: some
configured phrase's regex matches (`wakeWordRegexes.some (r => r.test t)`). -/
def useWakeWordDetect (ps : List (List Char)) (t : List Char) : Bool :=
  ps.any (fun w => wakePhraseTest w t)

/-- The inline wake-word detector of `useAgent.ts` (first revision,
lines 452-460): `WAKE_WORDS.some(word => transcript.includes(word))` on
`transcript.trim().toLowerCase()` — plain substring containment, with the
configured words already lowercase. -/
def agentInlineDetect (ps : List (List Char)) (t : List Char) : Bool :=
  ps.any (fun w => isSubstring w (lowerL (trimL t)))

/-! ## Whole-word matching: the compiled regex agrees with whole-word
occurrence for phrases that begin and end with word characters -/

theorem wordish_spec {w : List Char} (h : wordish w = true) :
    ∃ a w₁, w = a :: w₁ ∧ isWordChar a = true
      ∧ ∃ b, w.getLast? = some b ∧ isWordChar b = true := by
  cases w with
  | nil => simp [wordish] at h
  | cons a w₁ =>
    cases hb : (a :: w₁).getLast? with
    | none => simp at hb
    | some b =>
      simp only [wordish, List.head?_cons, hb, Bool.and_eq_true] at h
      exact ⟨a, w₁, rfl, h.1, b, rfl, h.2⟩

theorem isWordOpt_some (c : Char) : isWordOpt (some c) = isWordChar c := rfl

theorem isWordOpt_none : isWordOpt none = false := rfl

theorem wbFront_eq_wwFront {w : List Char} (hw : wordish w = true)
    (s : List Char) (prev : Option Char) : wbFront w s prev = wwFront w s prev := by
  obtain ⟨a, w₁, hwe, ha, b, hb, hgb⟩ := wordish_spec hw
  by_cases ht : s.take w.length = w
  · have hs : s.head? = some a := by
      cases s with
      | nil =>
        rw [List.take_nil] at ht
        rw [hwe] at ht
        exact absurd ht.symm (List.cons_ne_nil a w₁)
      | cons c s' =>
        rw [hwe] at ht
        rw [List.length_cons, List.take_succ_cons] at ht
        rw [List.head?_cons]
        rw [List.cons.injEq] at ht
        rw [ht.1]
    rw [wbFront, wwFront, ht, hs]
    rw [hwe]
    simp only [List.isEmpty_cons, Bool.false_eq_true, if_false]
    rw [← hwe, hb]
    simp only [jsBoundary, isWordOpt_some, ha, hgb]
    cases isWordOpt prev <;> cases isWordOpt ((s.drop w.length).head?) <;> rfl
  · rw [wbFront, wwFront]
    simp [ht]

theorem wbTestFrom_eq_wwOccursFrom {w : List Char} (hw : wordish w = true) :
    ∀ (s : List Char) (prev : Option Char), wbTestFrom w s prev = wwOccursFrom w s prev
  | [], prev => by
      rw [wbTestFrom, wwOccursFrom, wbFront_eq_wwFront hw]
  | c :: rest, prev => by
      rw [wbTestFrom, wwOccursFrom, wbFront_eq_wwFront hw,
        wbTestFrom_eq_wwOccursFrom hw rest (some c)]

theorem wwOccursFrom_congr (w : List Char) {p₁ p₂ : Option Char}
    (h : isWordOpt p₁ = isWordOpt p₂) :
    ∀ s, wwOccursFrom w s p₁ = wwOccursFrom w s p₂
  | [] => by rw [wwOccursFrom, wwOccursFrom, wwFront, wwFront, h]
  | c :: rest => by rw [wwOccursFrom, wwOccursFrom, wwFront, wwFront, h]

theorem wwOccurs_cons_nonword {w : List Char} (hw : wordish w = true)
    {c : Char} (hc : isWordChar c = false) (s : List Char) :
    wwOccurs w (c :: s) = wwOccurs w s := by
  obtain ⟨a, w₁, hwe, ha, _⟩ := wordish_spec hw
  have hfront : wwFront w (c :: s) none = false := by
    by_cases ht : (c :: s).take w.length = w
    · exfalso
      rw [hwe, List.length_cons, List.take_succ_cons, List.cons.injEq] at ht
      rw [← ht.1] at ha
      rw [ha] at hc
      exact Bool.noConfusion hc
    · rw [wwFront]
      simp [ht]
  rw [wwOccurs, wwOccurs, wwOccursFrom, hfront, Bool.false_or]
  exact wwOccursFrom_congr w (by rw [isWordOpt, isWordOpt, hc]) s

theorem wwOccurs_append_nonword_left {w : List Char} (hw : wordish w = true) :
    ∀ (p s : List Char), (∀ c ∈ p, isWordChar c = false) →
      wwOccurs w (p ++ s) = wwOccurs w s
  | [], _, _ => rfl
  | c :: p', s, hp => by
      rw [List.cons_append, wwOccurs_cons_nonword hw (hp c (by simp)),
        wwOccurs_append_nonword_left hw p' s (fun d hd => hp d (by simp [hd]))]

theorem wwFront_concat_nonword {w : List Char} (hw : wordish w = true)
    {c : Char} (hc : isWordChar c = false) (s : List Char) (prev : Option Char) :
    wwFront w (s ++ [c]) prev = wwFront w s prev := by
  obtain ⟨a, w₁, hwe, ha, b, hb, hgb⟩ := wordish_spec hw
  by_cases hn : w.length ≤ s.length
  · have ht : (s ++ [c]).take w.length = s.take w.length :=
      List.take_append_of_le_length hn
    have hd : (s ++ [c]).drop w.length = s.drop w.length ++ [c] :=
      List.drop_append_of_le_length hn
    rw [wwFront, wwFront, ht, hd]
    by_cases hts : s.take w.length = w
    · cases hsd : s.drop w.length with
      | nil => simp [hts, hsd, isWordOpt_some, isWordOpt_none, hc]
      | cons d rest => simp [hts, hsd, isWordOpt_some]
    · simp [hts]
  · have h1 : ¬ (s.take w.length = w) := by
      intro h
      have := congrArg List.length h
      rw [List.length_take] at this
      omega
    have h2 : ¬ ((s ++ [c]).take w.length = w) := by
      intro h
      have hl := congrArg List.length h
      rw [List.length_take, List.length_append, List.length_singleton] at hl
      have hw1 : w.length = s.length + 1 := by omega
      have hall : (s ++ [c]).take w.length = s ++ [c] := by
        apply List.take_of_length_le
        rw [List.length_append, List.length_singleton]
        omega
      rw [hall] at h
      have : w.getLast? = some c := by rw [← h]; exact List.getLast?_concat s
      rw [hb] at this
      injection this with hbc
      rw [hbc] at hgb
      rw [hgb] at hc
      exact Bool.noConfusion hc
    rw [wwFront, wwFront]
    simp [h1, h2]

theorem wwOccursFrom_concat_nonword {w : List Char} (hw : wordish w = true)
    {c : Char} (hc : isWordChar c = false) :
    ∀ (s : List Char) (prev : Option Char),
      wwOccursFrom w (s ++ [c]) prev = wwOccursFrom w s prev
  | [], prev => by
      obtain ⟨a, w₁, hwe, _⟩ := wordish_spec hw
      rw [List.nil_append]
      show (wwFront w [c] prev || wwOccursFrom w [] (some c)) = wwOccursFrom w [] prev
      rw [show wwFront w [c] prev = wwFront w ([] ++ [c]) prev by rw [List.nil_append]]
      rw [wwFront_concat_nonword hw hc [] prev]
      rw [wwOccursFrom, wwOccursFrom]
      have hempty : ∀ q : Option Char, wwFront w [] q = false := by
        intro q
        rw [wwFront, List.take_nil]
        have hno : (decide (([] : List Char) = w)) = false := by simp [hwe]
        rw [hno, Bool.false_and, Bool.false_and]
      rw [hempty (some c), hempty prev, Bool.or_false]
  | d :: s', prev => by
      rw [List.cons_append]
      show (wwFront w (d :: (s' ++ [c])) prev || wwOccursFrom w (s' ++ [c]) (some d))
        = (wwFront w (d :: s') prev || wwOccursFrom w s' (some d))
      rw [wwOccursFrom_concat_nonword hw hc s' (some d)]
      rw [show d :: (s' ++ [c]) = (d :: s') ++ [c] from rfl,
        wwFront_concat_nonword hw hc (d :: s') prev]

theorem wwOccurs_append_nonword_right {w : List Char} (hw : wordish w = true)
    (s q : List Char) (hq : ∀ c ∈ q, isWordChar c = false) :
    wwOccurs w (s ++ q) = wwOccurs w s := by
  induction q using List.reverseRecOn with
  | nil => rw [List.append_nil]
  | append_singleton q' c ih =>
      rw [← List.append_assoc, wwOccurs,
        wwOccursFrom_concat_nonword hw (hq c (by simp)) (s ++ q') none, ← wwOccurs,
        ih (fun d hd => hq d (by simp [hd]))]

theorem trimL_decomp (s : List Char) :
    ∃ p q, s = p ++ trimL s ++ q
      ∧ (∀ c ∈ p, isJsWs c = true) ∧ (∀ c ∈ q, isJsWs c = true) := by
  refine ⟨s.takeWhile isJsWs, ((s.dropWhile isJsWs).reverse.takeWhile isJsWs).reverse,
    ?_, ?_, ?_⟩
  · conv_lhs => rw [← List.takeWhile_append_dropWhile (p := isJsWs) (l := s)]
    rw [List.append_assoc]
    congr 1
    rw [trimL, ← List.reverse_append, List.takeWhile_append_dropWhile,
      List.reverse_reverse]
  · intro c hc
    exact List.mem_takeWhile_imp hc
  · intro c hc
    rw [List.mem_reverse] at hc
    exact List.mem_takeWhile_imp hc

theorem isJsWs_lower_fixed {c : Char} (h : isJsWs c = true) :
    jsLowerChar c = c ∧ isWordChar c = false := by
  simp only [isJsWs, Bool.or_eq_true, decide_eq_true_eq, or_assoc] at h
  rcases h with h | h | h | h | h | h <;> subst h <;> exact ⟨by decide, by decide⟩

theorem lowerL_margin_nonword {p : List Char} (hp : ∀ c ∈ p, isJsWs c = true) :
    ∀ c ∈ List.map jsLowerChar p, isWordChar c = false := by
  intro c hc
  rw [List.mem_map] at hc
  obtain ⟨c₀, hc₀, rfl⟩ := hc
  obtain ⟨he, hn⟩ := isJsWs_lower_fixed (hp c₀ hc₀)
  rw [he]
  exact hn

theorem wwOccurs_lower_trim {w : List Char} (hw : wordish w = true) (t : List Char) :
    wwOccurs w (lowerL (trimL t)) = wwOccurs w (lowerL t) := by
  obtain ⟨p, q, hdecomp, hp, hq⟩ := trimL_decomp t
  conv_rhs => rw [hdecomp, lowerL, List.map_append, List.map_append]
  rw [wwOccurs_append_nonword_right hw _ _ (lowerL_margin_nonword hq)]
  rw [wwOccurs_append_nonword_left hw _ _ (lowerL_margin_nonword hp)]
  rfl

theorem wakePhraseTest_eq {w : List Char} (hw : wordish (lowerL w) = true)
    (t : List Char) : wakePhraseTest w t = wwOccurs (lowerL w) (lowerL t) := by
  rw [wakePhraseTest, wbTest, wbTestFrom_eq_wwOccursFrom hw]
  exact wwOccurs_lower_trim hw t

/-- Claim C1 (amended): the `useWakeWord.ts` detector activates on a
recognized transcript `t` iff some configured phrase occurs in `t` as a
whole word (case-insensitively, with regex metacharacters in the phrase
treated literally), provided every phrase — lowercased — is nonempty and
begins and ends with a word character.  (The inline detector of
`useAgent.ts`, which uses substring containment, does NOT satisfy this:
see the counterexample.) -/
theorem useWakeWord_activates_iff_whole_word (ps : List (List Char)) (t : List Char)
    (h : ∀ w ∈ ps, wordish (lowerL w) = true) :
    useWakeWordDetect ps t = true
      ↔ ∃ w ∈ ps, wwOccurs (lowerL w) (lowerL t) = true := by
  rw [useWakeWordDetect, List.any_eq_true]
  constructor
  · rintro ⟨w, hm, htest⟩
    exact ⟨w, hm, by rw [← wakePhraseTest_eq (h w hm)]; exact htest⟩
  · rintro ⟨w, hm, hocc⟩
    exact ⟨w, hm, by rw [wakePhraseTest_eq (h w hm)]; exact hocc⟩

/-- Witness for the amended claim C1 theorem: the phrase set
`["hey friday"]` satisfies the side condition, and the detector activates
on a transcript containing the phrase as a whole word. -/
theorem useWakeWord_activates_iff_whole_word_witness :
    (∀ w ∈ [("hey friday").toList], wordish (lowerL w) = true)
      ∧ useWakeWordDetect [("hey friday").toList] (" Hey Friday, wake up".toList) = true :=
  ⟨by decide,
    (useWakeWord_activates_iff_whole_word _ _ (by decide)).mpr
      ⟨("hey friday").toList, by decide, by decide⟩⟩

/-- Claim C1 counterexample: as stated over both cited detector
implementations, the claim is false.  (1) The inline detector of
`useAgent.ts` (first revision) activates on the phrase "hey" inside the
transcript "heyday", which is exactly the partial-word overlap the claim
rules out.  (2) Even the regex-based detector of `useWakeWord.ts` departs
from whole-word occurrence when a phrase starts with a non-word character:
for the phrase "!hey", `\b` anchors make it match inside "a!hey" although
"!hey" does not occur there delimited by non-word characters. -/
theorem wakeWord_claim_counterexample :
    (agentInlineDetect [("hey").toList] ("heyday").toList = true
      ∧ wwOccurs (lowerL ("hey").toList) (lowerL ("heyday").toList) = false)
    ∧ (useWakeWordDetect [("!hey").toList] ("a!hey").toList = true
      ∧ wwOccurs (lowerL ("!hey").toList) (lowerL ("a!hey").toList) = false) :=
  ⟨⟨by decide, by decide⟩, ⟨by decide, by decide⟩⟩

/-- `Math.max` on the (finite) values the scheduler feeds it. -/
def jsMax (a b : ℚ) : ℚ := if a ≤ b then b else a

theorem jsMax_eq_max (a b : ℚ) : jsMax a b = max a b := by
  rw [jsMax]
  by_cases h : a ≤ b
  · rw [if_pos h, max_eq_right h]
  · rw [if_neg h, max_eq_left (le_of_not_le h)]

/-! ## Conversation session state machine (`useAgent.ts`, second revision)

The session's mutable refs and React state are gathered into one record;
the `onmessage` handler becomes a step function over a typed event
enumeration.  Entry ids (`Date.now().toString()`) carry no information the
claims mention and are omitted.  Playback time is `ℚ`: an audio-chunk event
carries the output clock value `now` (`currentTime`) and the decoded
buffer's `duration`; a scheduled clip is its `(start, duration)` pair. -/

inductive Speaker where
  | user : Speaker
  | agent : Speaker
  | system : Speaker
deriving DecidableEq, Repr

/-- One transcript entry (`TranscriptEntry` of `types.ts`, without the id). -/
structure Entry where
  speaker : Speaker
  text : List Char
deriving DecidableEq, Repr

inductive AgentStatusL where
  | IDLE : AgentStatusL
  | CONNECTING : AgentStatusL
  | LISTENING : AgentStatusL
  | THINKING : AgentStatusL
  | SPEAKING : AgentStatusL
  | ERROR : AgentStatusL
deriving DecidableEq, Repr

/-- The session's shared mutable state: React state (`agentStatus`,
`transcriptHistory`) and the refs (`currentInputTranscription`,
`currentOutputTranscription`, `isGreetingRef`, `turnInterruptedRef`,
`audioSources`, `nextStartTime`, `sessionPromiseRef`, `mediaStreamRef`,
`scriptProcessorRef`, `pendingImageRef`), plus whether a wake-word-listener
restart has been scheduled by `stopConversation`. -/
structure ConvState where
  status : AgentStatusL
  history : List Entry
  curIn : List Char
  curOut : List Char
  greeting : Bool
  turnInterrupted : Bool
  sources : List (ℚ × ℚ)
  cursor : ℚ
  sessionOpen : Bool
  micHeld : Bool
  scriptProcessor : Bool
  pendingImage : Option (List Char)
  wakeRestartScheduled : Bool
deriving DecidableEq, Repr

/-- Guard of the user-side merge (`lastEntry?.speaker === 'user' &&
!lastEntry.text.startsWith('<img')`). -/
def userMergeable : Option Entry → Bool
  | some e =>
      (match e.speaker with | .user => true | _ => false)
      && !(decide (e.text.take 4 = "<img".toList))
  | none => false

/-- Guard of the agent-side merge (`last && last.speaker === 'agent' &&
!last.text.trim().startsWith('<img')`). -/
def agentMergeable : Option Entry → Bool
  | some e =>
      (match e.speaker with | .agent => true | _ => false)
      && !(decide ((trimL e.text).take 4 = "<img".toList))
  | none => false

/-- `serverContent.inputTranscription` handler: the greeting filter drops
the synthetic "Hello" trigger; otherwise the fragment is appended to the
input accumulator and the history's last user text entry is rewritten to
the accumulator (or a new user entry is appended). -/
def handleInputText (s : ConvState) (t : List Char) : ConvState :=
  if s.greeting && (isSubstring "hello".toList (lowerL t) || decide (t.length < 5)) then s
  else
    let acc := s.curIn ++ t
    { s with
      greeting := false
      curIn := acc
      history :=
        if userMergeable s.history.getLast?
        then s.history.dropLast ++ [⟨.user, acc⟩]
        else s.history ++ [⟨.user, acc⟩] }

/-- `serverContent.outputTranscription` handler: status becomes SPEAKING,
the fragment is appended to the output accumulator and the history's last
agent entry (unless it renders an image) is rewritten to the accumulator
(or a new agent entry is appended). -/
def handleOutputText (s : ConvState) (t : List Char) : ConvState :=
  let acc := s.curOut ++ t
  { s with
    status := .SPEAKING
    curOut := acc
    history :=
      if agentMergeable s.history.getLast?
      then s.history.dropLast ++ [⟨.agent, acc⟩]
      else s.history ++ [⟨.agent, acc⟩] }

/-- `serverContent.turnComplete` handler. -/
def handleTurnComplete (s : ConvState) : ConvState :=
  { s with curIn := [], curOut := [], status := .LISTENING, turnInterrupted := false }

/-- `serverContent.interrupted` handler: set the turn-interrupted flag,
stop and clear every active source, reset the playback cursor to 0, drop
the in-flight agent transcript, return to LISTENING. -/
def handleInterrupted (s : ConvState) : ConvState :=
  { s with
    turnInterrupted := true
    sources := []
    cursor := 0
    curOut := []
    status := .LISTENING }

/-- Inbound audio chunk (`modelTurn.parts[0].inlineData.data`): the cursor
is first pulled up to `now` (`Math.max(nextStartTime, currentTime)`), the
clip starts there, and the cursor advances by the clip's duration. -/
def handleAudioChunk (s : ConvState) (now dur : ℚ) : ConvState :=
  let start := jsMax s.cursor now
  { s with cursor := start + dur, sources := s.sources ++ [(start, dur)] }

/-- A clip's `ended` listener removes it from the active set. -/
def handleClipEnded (s : ConvState) (clip : ℚ × ℚ) : ConvState :=
  { s with sources := s.sources.erase clip }

/-- `addTranscript` (and the non-text entries produced by tool calls:
image markup, `[PRODUCT_RESULTS]...` payloads): plain append. -/
def addEntry (s : ConvState) (sp : Speaker) (txt : List Char) : ConvState :=
  { s with history := s.history ++ [⟨sp, txt⟩] }

inductive SessionEvent where
  | inputText : List Char → SessionEvent
  | outputText : List Char → SessionEvent
  | turnComplete : SessionEvent
  | interrupted : SessionEvent
  | audioChunk : ℚ → ℚ → SessionEvent
  | clipEnded : ℚ × ℚ → SessionEvent
  | newEntry : Speaker → List Char → SessionEvent
deriving DecidableEq, Repr

def step (s : ConvState) : SessionEvent → ConvState
  | .inputText t => handleInputText s t
  | .outputText t => handleOutputText s t
  | .turnComplete => handleTurnComplete s
  | .interrupted => handleInterrupted s
  | .audioChunk now dur => handleAudioChunk s now dur
  | .clipEnded c => handleClipEnded s c
  | .newEntry sp txt => addEntry s sp txt

def runEvents (s : ConvState) (es : List SessionEvent) : ConvState :=
  es.foldl step s

/-- `stopConversation` (second revision, lines 722-753): a no-op when the
engine is already idle with no session; otherwise every resource release is
guarded by possession (`?.` / explicit null checks in the source), all refs
are nulled, active playback is stopped and cleared, the cursor reset, a
"Session ended." line is added unless the engine is in ERROR, status
becomes IDLE and a wake-word-listener restart is scheduled. -/
def stopConversation (s : ConvState) : ConvState :=
  if s.status = .IDLE ∧ s.sessionOpen = false then s
  else
    { s with
      scriptProcessor := false
      sessionOpen := false
      micHeld := false
      pendingImage := none
      sources := []
      cursor := 0
      history :=
        if s.status ≠ .ERROR
        then s.history ++ [⟨.system, "Session ended.".toList⟩]
        else s.history
      status := .IDLE
      greeting := false
      wakeRestartScheduled := true }

/-! ## Tool-call batches (`useAgent.ts`, second revision, lines 943-1002)

`message.toolCall` handling: status becomes THINKING, the module-level
turn-interrupted flag is cleared, and the batch's calls are executed with a
`for` loop in the order received.  A call's execution may overlap an
inbound interruption (the awaits inside the loop yield to `onmessage`);
`interruptedDuring` records whether the flag had been set by the time the
post-execution check for that call runs.  After each call the loop checks
the flag: if set it `break`s (no response for this call, none for the
rest); otherwise it sends `{id, name, response: {result}}`. -/

structure PendingCall where
  id : List Char
  name : List Char
  result : List Char
  interruptedDuring : Bool
deriving DecidableEq, Repr

/-- The `for` loop with the threaded interrupted flag: returns the
executed call ids (in execution order) and the responses sent (in dispatch
order, keyed by call id). -/
def toolLoop : Bool → List PendingCall → List (List Char) × List (List Char × List Char × List Char)
  | _, [] => ([], [])
  | flag, c :: rest =>
      let flagAfter := flag || c.interruptedDuring
      if flagAfter then ([c.id], [])
      else
        let (ex, sent) := toolLoop flagAfter rest
        (c.id :: ex, (c.id, c.name, c.result) :: sent)

/-- The whole `message.toolCall` branch: `turnInterruptedRef.current =
false` at batch start discards whatever the flag was before. -/
def handleToolBatch (_priorInterrupted : Bool) (calls : List PendingCall) :
    List (List Char) × List (List Char × List Char × List Char) :=
  toolLoop false calls

theorem toolLoop_false_spec (calls : List PendingCall) :
    toolLoop false calls
      = ((calls.takeWhile (fun c => !c.interruptedDuring)).map PendingCall.id
           ++ (match calls.dropWhile (fun c => !c.interruptedDuring) with
               | [] => []
               | c :: _ => [c.id]),
         (calls.takeWhile (fun c => !c.interruptedDuring)).map
           (fun c => (c.id, c.name, c.result))) := by
  induction calls with
  | nil => rfl
  | cons c rest ih =>
      rw [toolLoop]
      by_cases hc : c.interruptedDuring
      · simp [hc, List.takeWhile_cons, List.dropWhile_cons]
      · simp only [hc, Bool.false_or, if_false, Bool.or_false]
        rw [ih]
        simp [List.takeWhile_cons, List.dropWhile_cons, hc]

/-- Claim C2: within one tool-call batch, the prior value of the
turn-interrupted flag is irrelevant (it is cleared at batch start); calls
are executed sequentially in arrival order — the executed ids are the
longest uninterrupted prefix plus the single call during which the
interruption landed, and nothing after it; each executed-and-uninterrupted
call's response is sent, correlated by its call id, in dispatch order; and
once the flag is set no further response is sent for the remainder of the
batch. -/
theorem toolBatch_order_and_interrupt (prior : Bool) (calls : List PendingCall) :
    handleToolBatch prior calls = handleToolBatch false calls
    ∧ (handleToolBatch prior calls).2
        = (calls.takeWhile (fun c => !c.interruptedDuring)).map
            (fun c => (c.id, c.name, c.result))
    ∧ (handleToolBatch prior calls).1
        = (calls.takeWhile (fun c => !c.interruptedDuring)).map PendingCall.id
            ++ (match calls.dropWhile (fun c => !c.interruptedDuring) with
                | [] => []
                | c :: _ => [c.id]) := by
  refine ⟨rfl, ?_, ?_⟩ <;>
    rw [handleToolBatch, toolLoop_false_spec]

/-! ## Stop and interruption (`useAgent.ts`, second revision) -/

/-- Claim C6: `stopConversation` is total by construction (every release
in the source is guarded by possession of the resource, so it cannot
throw even when the session never opened), it always leaves the engine
IDLE, and running it twice equals running it once. -/
theorem stopConversation_idempotent_total (s : ConvState) :
    (stopConversation s).status = .IDLE
    ∧ stopConversation (stopConversation s) = stopConversation s := by
  constructor
  · rw [stopConversation]
    by_cases h : s.status = AgentStatusL.IDLE ∧ s.sessionOpen = false
    · rw [if_pos h]; exact h.1
    · rw [if_neg h]
  · have hstat : (stopConversation s).status = .IDLE := by
      rw [stopConversation]
      by_cases h : s.status = AgentStatusL.IDLE ∧ s.sessionOpen = false
      · rw [if_pos h]; exact h.1
      · rw [if_neg h]
    have hsess : (stopConversation s).sessionOpen = false := by
      rw [stopConversation]
      by_cases h : s.status = AgentStatusL.IDLE ∧ s.sessionOpen = false
      · rw [if_pos h]; exact h.2
      · rw [if_neg h]
    rw [stopConversation]
    rw [if_pos ⟨hstat, hsess⟩]

/-- A demonstration state used by closed instances: a live listening
session with empty history and idle playback. -/
def convDemo : ConvState :=
  { status := .LISTENING
    history := []
    curIn := []
    curOut := []
    greeting := false
    turnInterrupted := false
    sources := []
    cursor := 0
    sessionOpen := true
    micHeld := true
    scriptProcessor := true
    pendingImage := none
    wakeRestartScheduled := false }

/-- Claim C8 (amended): the interruption handler is exactly idempotent
(running it twice produces the same state as once); afterwards the active
set is empty and the cursor is reset to 0 — not to "now" — so when nothing
was playing (in which case the cursor is at or before "now") the reset
does not change the start time `max(cursor, now)` of any future clip: the
interruption is a behavioural no-op, but not a state no-op, because the
stored cursor value changes. -/
theorem interrupt_idempotent (s : ConvState) (now : ℚ)
    (hcur : s.cursor ≤ now) (h0 : 0 ≤ now) :
    handleInterrupted (handleInterrupted s) = handleInterrupted s
    ∧ (handleInterrupted s).sources = [] ∧ (handleInterrupted s).cursor = 0
    ∧ jsMax (handleInterrupted s).cursor now = jsMax s.cursor now := by
  refine ⟨rfl, rfl, rfl, ?_⟩
  show jsMax (0 : ℚ) now = jsMax s.cursor now
  rw [jsMax_eq_max, jsMax_eq_max, max_eq_right h0, max_eq_right hcur]

/-- Witness for the amended claim C8 theorem at a concrete state. -/
theorem interrupt_idempotent_witness :
    ((convDemo.cursor ≤ (2 : ℚ)) ∧ ((0 : ℚ) ≤ 2))
    ∧ jsMax (handleInterrupted convDemo).cursor 2 = jsMax convDemo.cursor 2 :=
  ⟨⟨by decide, by decide⟩,
    (interrupt_idempotent convDemo 2 (by decide) (by decide)).2.2.2⟩

/-- Claim C8 counterexample: invoking the interruption handler with no
clip playing is not a state no-op — the cursor (here 3, left over from
finished playback) is reset to 0, so the playback state changes. -/
theorem interrupt_not_noop_counterexample :
    ({ convDemo with cursor := 3, turnInterrupted := true } : ConvState).sources = []
    ∧ handleInterrupted { convDemo with cursor := 3, turnInterrupted := true }
        ≠ { convDemo with cursor := 3, turnInterrupted := true } := by
  exact ⟨rfl, by decide⟩

/-! ## Playback scheduling (`useAgent.ts`, second revision, lines 1004-1015) -/

/-- The `(start, duration)` pairs produced by enqueuing a list of
`(now, duration)` chunks from a given cursor: each clip starts at
`max(cursor, now)` (`nextStartTime = Math.max(nextStartTime, currentTime)`
followed by `source.start(nextStartTime)`) and the cursor advances by the
clip's duration. -/
def scheduleRun : ℚ → List (ℚ × ℚ) → List (ℚ × ℚ)
  | _, [] => []
  | cur, (now, dur) :: rest => (jsMax cur now, dur) :: scheduleRun (jsMax cur now + dur) rest

/-- The cursor after enqueuing all chunks. -/
def finalCursor : ℚ → List (ℚ × ℚ) → ℚ
  | cur, [] => cur
  | cur, (now, dur) :: rest => finalCursor (jsMax cur now + dur) rest

/-- Sum of the chunk durations. -/
def sumD (clips : List (ℚ × ℚ)) : ℚ := (clips.map Prod.snd).sum

/-- Every chunk arrives no later than the cursor (the stream keeps the
backlog nonempty, so `max cursor now = cursor`). -/
def noUnderrunB : ℚ → List (ℚ × ℚ) → Bool
  | _, [] => true
  | cur, (now, dur) :: rest => decide (now ≤ cur) && noUnderrunB (cur + dur) rest

theorem scheduleRun_head_start (cur : ℚ) (l : List (ℚ × ℚ))
    (h : 0 < (scheduleRun cur l).length) :
    cur ≤ ((scheduleRun cur l).get ⟨0, h⟩).1 := by
  match l with
  | [] => exact absurd h (by simp [scheduleRun])
  | (n, d) :: rest =>
      show cur ≤ (jsMax cur n, d).1
      rw [jsMax_eq_max]
      exact le_max_left cur n

theorem scheduleRun_adjacent (cur : ℚ) (clips : List (ℚ × ℚ)) :
    ∀ i, (h : i + 1 < (scheduleRun cur clips).length) →
      ((scheduleRun cur clips).get ⟨i, Nat.lt_of_succ_lt h⟩).1
        + ((scheduleRun cur clips).get ⟨i, Nat.lt_of_succ_lt h⟩).2
        ≤ ((scheduleRun cur clips).get ⟨i + 1, h⟩).1 := by
  induction clips generalizing cur with
  | nil => intro i h; exact absurd h (by simp [scheduleRun])
  | cons hd rest ih =>
      intro i h
      obtain ⟨n, d⟩ := hd
      match i with
      | 0 =>
          show (jsMax cur n, d).1 + (jsMax cur n, d).2
            ≤ ((scheduleRun (jsMax cur n + d) rest).get ⟨0, _⟩).1
          exact scheduleRun_head_start (jsMax cur n + d) rest _
      | Nat.succ j =>
          exact ih (jsMax cur n + d) j _

theorem finalCursor_noUnderrun (cur : ℚ) (clips : List (ℚ × ℚ))
    (h : noUnderrunB cur clips = true) :
    finalCursor cur clips = cur + sumD clips := by
  induction clips generalizing cur with
  | nil => show cur = cur + sumD []; simp [sumD]
  | cons hd rest ih =>
      obtain ⟨n, d⟩ := hd
      rw [noUnderrunB, Bool.and_eq_true, decide_eq_true_eq] at h
      rw [finalCursor, jsMax_eq_max, max_eq_left h.1, ih (cur + d) h.2]
      show cur + d + sumD rest = cur + sumD ((n, d) :: rest)
      rw [sumD, sumD, List.map_cons, List.sum_cons, add_assoc]

theorem runAudio_machine (clips : List (ℚ × ℚ)) :
    ∀ s : ConvState,
      (runEvents s (clips.map (fun c => SessionEvent.audioChunk c.1 c.2))).sources
          = s.sources ++ scheduleRun s.cursor clips
      ∧ (runEvents s (clips.map (fun c => SessionEvent.audioChunk c.1 c.2))).cursor
          = finalCursor s.cursor clips := by
  induction clips with
  | nil => intro s; exact ⟨(List.append_nil s.sources).symm, rfl⟩
  | cons hd rest ih =>
      intro s
      obtain ⟨n, d⟩ := hd
      obtain ⟨ihs, ihc⟩ := ih (handleAudioChunk s n d)
      constructor
      · rw [List.map_cons, runEvents, List.foldl_cons]
        show (runEvents (handleAudioChunk s n d) _).sources = _
        rw [ihs]
        show s.sources ++ [(jsMax s.cursor n, d)] ++ scheduleRun (jsMax s.cursor n + d) rest
          = s.sources ++ scheduleRun s.cursor ((n, d) :: rest)
        rw [scheduleRun, List.append_assoc]
        rfl
      · rw [List.map_cons, runEvents, List.foldl_cons]
        show (runEvents (handleAudioChunk s n d) _).cursor = _
        rw [ihc]
        rfl

/-- Claim C3 (amended): enqueuing N chunks with no interruption schedules
them in order; clip `i` starts at `max(cursor, now_i)` and the cursor
advances by its duration (the machine's active set grows by exactly
`scheduleRun` and its cursor becomes `finalCursor`); consecutive starts
satisfy `start(i) + duration(i) ≤ start(i+1)` (non-overlapping, order
preserving) unconditionally; and the total span equals the sum of the
durations — the final cursor is the first clip's start plus all durations
— PROVIDED each later chunk arrives at or before the cursor
(`noUnderrunB`); a chunk arriving after the backlog drained opens a gap
(see the counterexample). -/
theorem playback_gapless_schedule (s : ConvState) (clips : List (ℚ × ℚ)) :
    ((runEvents s (clips.map (fun c => SessionEvent.audioChunk c.1 c.2))).sources
        = s.sources ++ scheduleRun s.cursor clips
      ∧ (runEvents s (clips.map (fun c => SessionEvent.audioChunk c.1 c.2))).cursor
        = finalCursor s.cursor clips)
    ∧ (∀ i, (h : i + 1 < (scheduleRun s.cursor clips).length) →
        ((scheduleRun s.cursor clips).get ⟨i, Nat.lt_of_succ_lt h⟩).1
          + ((scheduleRun s.cursor clips).get ⟨i, Nat.lt_of_succ_lt h⟩).2
          ≤ ((scheduleRun s.cursor clips).get ⟨i + 1, h⟩).1)
    ∧ (∀ n d rest, clips = (n, d) :: rest →
        noUnderrunB (jsMax s.cursor n + d) rest = true →
        finalCursor s.cursor clips = (jsMax s.cursor n + d) + sumD rest) := by
  refine ⟨runAudio_machine clips s, scheduleRun_adjacent s.cursor clips, ?_⟩
  rintro n d rest rfl hnu
  rw [finalCursor, finalCursor_noUnderrun _ _ hnu]

/-- Witness for the amended claim C3 theorem at a concrete chunk list. -/
theorem playback_gapless_schedule_witness :
    (noUnderrunB (jsMax convDemo.cursor 5 + 2) [] = true)
    ∧ finalCursor convDemo.cursor [((5 : ℚ), 2)]
        = (jsMax convDemo.cursor 5 + 2) + sumD [] :=
  ⟨rfl,
    (playback_gapless_schedule convDemo [((5 : ℚ), 2)]).2.2
      5 2 [] rfl rfl⟩

/-- Claim C3 counterexample: as stated, "the total span equals the sum of
the clip durations" fails when a chunk arrives after the previous clip
has finished.  Two clips of duration 1, the second arriving at time 5:
the first starts at 0, the second at 5, the final cursor is 6, so the
span from the first start (0) is 6 while the durations sum to 2. -/
theorem playback_span_counterexample :
    scheduleRun 0 [((0 : ℚ), 1), (5, 1)] = [(0, 1), (5, 1)]
    ∧ finalCursor 0 [((0 : ℚ), 1), (5, 1)] = 6
    ∧ sumD [((0 : ℚ), 1), (5, 1)] = 2
    ∧ (6 : ℚ) - 0 ≠ 2 := by
  refine ⟨?_, ?_, ?_, by norm_num⟩
  · norm_num [scheduleRun, jsMax]
  · norm_num [finalCursor, jsMax]
  · norm_num [sumD]

/-! ## Transcript merging (`useAgent.ts`, second revision, lines 907-935) -/

/-- Concatenation of transcript fragments in arrival order. -/
def strConcat : List (List Char) → List Char
  | [] => []
  | t :: ts => t ++ strConcat ts

/-- No intermediate user accumulator value looks like an image payload
(`startsWith('<img')`), so every fragment of the run merges. -/
def accumOkUser : List Char → List (List Char) → Bool
  | _, [] => true
  | c, t :: ts =>
      !(decide ((c ++ t).take 4 = "<img".toList)) && accumOkUser (c ++ t) ts

/-- No intermediate agent accumulator value looks, after trimming, like an
image payload. -/
def accumOkAgent : List Char → List (List Char) → Bool
  | _, [] => true
  | c, t :: ts =>
      !(decide ((trimL (c ++ t)).take 4 = "<img".toList)) && accumOkAgent (c ++ t) ts

theorem handleInputText_no_greeting {s : ConvState} (hg : s.greeting = false)
    (t : List Char) :
    handleInputText s t
      = { s with
          greeting := false
          curIn := s.curIn ++ t
          history :=
            if userMergeable s.history.getLast?
            then s.history.dropLast ++ [⟨.user, s.curIn ++ t⟩]
            else s.history ++ [⟨.user, s.curIn ++ t⟩] } := by
  rw [handleInputText, if_neg]
  rw [hg]
  simp

theorem take_pred_append (h : List Entry) (x : Entry) :
    (h ++ [x]).take (h.length - 1) = h.take (h.length - 1) :=
  List.take_append_of_le_length (by omega)

theorem take_pred_mergeLast (h : List Entry) (x : Entry) :
    (h.dropLast ++ [x]).take (h.length - 1) = h.take (h.length - 1) := by
  rw [List.take_append_of_le_length (by rw [List.length_dropLast])]
  rw [List.take_of_length_le (by rw [List.length_dropLast])]
  rw [List.dropLast_eq_take]

theorem step_preserves_earlier_entries (s : ConvState) (e : SessionEvent) :
    (step s e).history.take (s.history.length - 1)
      = s.history.take (s.history.length - 1) := by
  cases e with
  | inputText t =>
      show (handleInputText s t).history.take _ = _
      rw [handleInputText]
      by_cases hg : (s.greeting && (isSubstring "hello".toList (lowerL t)
          || decide (t.length < 5))) = true
      · rw [if_pos hg]
      · rw [if_neg hg]
        by_cases hm : userMergeable s.history.getLast? = true
        · show ((if userMergeable s.history.getLast? then _ else _) : List Entry).take _ = _
          rw [if_pos hm]
          exact take_pred_mergeLast s.history _
        · show ((if userMergeable s.history.getLast? then _ else _) : List Entry).take _ = _
          rw [if_neg hm]
          exact take_pred_append s.history _
  | outputText t =>
      show (handleOutputText s t).history.take _ = _
      rw [handleOutputText]
      by_cases hm : agentMergeable s.history.getLast? = true
      · show ((if agentMergeable s.history.getLast? then _ else _) : List Entry).take _ = _
        rw [if_pos hm]
        exact take_pred_mergeLast s.history _
      · show ((if agentMergeable s.history.getLast? then _ else _) : List Entry).take _ = _
        rw [if_neg hm]
        exact take_pred_append s.history _
  | turnComplete => rfl
  | interrupted => rfl
  | audioChunk now dur => rfl
  | clipEnded c => rfl
  | newEntry sp txt => exact take_pred_append s.history _

theorem inputText_image_protected (s : ConvState) (t : List Char) (e : Entry)
    (hl : s.history.getLast? = some e) (himg : e.text.take 4 = "<img".toList) :
    (handleInputText s t).history = s.history
      ∨ (handleInputText s t).history = s.history ++ [⟨.user, s.curIn ++ t⟩] := by
  rw [handleInputText]
  by_cases hg : (s.greeting && (isSubstring "hello".toList (lowerL t)
      || decide (t.length < 5))) = true
  · rw [if_pos hg]
    exact Or.inl rfl
  · rw [if_neg hg]
    right
    show (if userMergeable s.history.getLast? then _ else _ : List Entry) = _
    rw [if_neg]
    rw [hl, userMergeable]
    simp [himg]

theorem outputText_image_protected (s : ConvState) (t : List Char) (e : Entry)
    (hl : s.history.getLast? = some e)
    (himg : (trimL e.text).take 4 = "<img".toList) :
    (handleOutputText s t).history = s.history ++ [⟨.agent, s.curOut ++ t⟩] := by
  rw [handleOutputText]
  show (if agentMergeable s.history.getLast? then _ else _ : List Entry) = _
  rw [if_neg]
  rw [hl, agentMergeable]
  simp [himg]

theorem userRun_merge_law (ts : List (List Char)) :
    ts ≠ [] → ∀ s : ConvState, s.greeting = false →
      accumOkUser s.curIn ts = true →
      (runEvents s (ts.map SessionEvent.inputText)).curIn = s.curIn ++ strConcat ts
      ∧ (runEvents s (ts.map SessionEvent.inputText)).history
          = (if userMergeable s.history.getLast?
             then s.history.dropLast else s.history)
            ++ [⟨.user, s.curIn ++ strConcat ts⟩] := by
  induction ts with
  | nil => intro h; exact absurd rfl h
  | cons t ts' ih =>
      intro _ s hg hok
      rw [accumOkUser, Bool.and_eq_true] at hok
      have hstep := handleInputText_no_greeting hg t
      rw [List.map_cons, runEvents, List.foldl_cons]
      show (runEvents (step s (SessionEvent.inputText t)) (ts'.map SessionEvent.inputText)).curIn = _
        ∧ (runEvents (step s (SessionEvent.inputText t)) (ts'.map SessionEvent.inputText)).history = _
      have hstep' : step s (SessionEvent.inputText t) = handleInputText s t := rfl
      rw [hstep', hstep]
      cases ts' with
      | nil =>
          refine ⟨?_, ?_⟩
          · show s.curIn ++ t = s.curIn ++ strConcat [t]
            rw [strConcat, strConcat, List.append_nil]
          · show (if userMergeable s.history.getLast? then _ else _ : List Entry) = _
            rw [strConcat, strConcat, List.append_nil]
            by_cases hm : userMergeable s.history.getLast? = true
            · rw [if_pos hm, if_pos hm]
            · rw [if_neg hm, if_neg hm]
      | cons t₂ ts₂ =>
          set s₁ : ConvState :=
            { s with
              greeting := false
              curIn := s.curIn ++ t
              history :=
                if userMergeable s.history.getLast?
                then s.history.dropLast ++ [⟨.user, s.curIn ++ t⟩]
                else s.history ++ [⟨.user, s.curIn ++ t⟩] } with hs₁
          have hlast : s₁.history.getLast? = some ⟨.user, s.curIn ++ t⟩ := by
            rw [hs₁]
            show (if userMergeable s.history.getLast? then _ else _ : List Entry).getLast? = _
            by_cases hm : userMergeable s.history.getLast? = true
            · rw [if_pos hm]; exact List.getLast?_concat _
            · rw [if_neg hm]; exact List.getLast?_concat _
          have hmerge : userMergeable s₁.history.getLast? = true := by
            rw [hlast, userMergeable]
            simp only [Bool.true_and]
            exact hok.1
          have hdrop : s₁.history.dropLast
              = (if userMergeable s.history.getLast?
                 then s.history.dropLast else s.history) := by
            rw [hs₁]
            show (if userMergeable s.history.getLast? then _ else _ : List Entry).dropLast = _
            by_cases hm : userMergeable s.history.getLast? = true
            · rw [if_pos hm, if_pos hm]; exact List.dropLast_concat
            · rw [if_neg hm, if_neg hm]; exact List.dropLast_concat
          obtain ⟨ihc, ihh⟩ := ih (by simp) s₁ (by rw [hs₁]) (by rw [hs₁]; exact hok.2)
          constructor
          · rw [ihc]
            show s₁.curIn ++ strConcat (t₂ :: ts₂) = _
            rw [hs₁]
            show (s.curIn ++ t) ++ strConcat (t₂ :: ts₂) = s.curIn ++ strConcat (t :: t₂ :: ts₂)
            rw [List.append_assoc]
            rfl
          · rw [ihh]
            simp only [hmerge, if_true]
            rw [hdrop]
            show _ ++ [Entry.mk .user ((s.curIn ++ t) ++ strConcat (t₂ :: ts₂))] = _
            rw [List.append_assoc]
            rfl

theorem agentRun_merge_law (ts : List (List Char)) :
    ts ≠ [] → ∀ s : ConvState,
      accumOkAgent s.curOut ts = true →
      (runEvents s (ts.map SessionEvent.outputText)).curOut = s.curOut ++ strConcat ts
      ∧ (runEvents s (ts.map SessionEvent.outputText)).history
          = (if agentMergeable s.history.getLast?
             then s.history.dropLast else s.history)
            ++ [⟨.agent, s.curOut ++ strConcat ts⟩] := by
  induction ts with
  | nil => intro h; exact absurd rfl h
  | cons t ts' ih =>
      intro _ s hok
      rw [accumOkAgent, Bool.and_eq_true] at hok
      rw [List.map_cons, runEvents, List.foldl_cons]
      show (runEvents (step s (SessionEvent.outputText t)) (ts'.map SessionEvent.outputText)).curOut = _
        ∧ (runEvents (step s (SessionEvent.outputText t)) (ts'.map SessionEvent.outputText)).history = _
      have hstep' : step s (SessionEvent.outputText t) = handleOutputText s t := rfl
      have hstep : handleOutputText s t
          = { s with
              status := .SPEAKING
              curOut := s.curOut ++ t
              history :=
                if agentMergeable s.history.getLast?
                then s.history.dropLast ++ [⟨.agent, s.curOut ++ t⟩]
                else s.history ++ [⟨.agent, s.curOut ++ t⟩] } := rfl
      rw [hstep', hstep]
      cases ts' with
      | nil =>
          refine ⟨?_, ?_⟩
          · show s.curOut ++ t = s.curOut ++ strConcat [t]
            rw [strConcat, strConcat, List.append_nil]
          · show (if agentMergeable s.history.getLast? then _ else _ : List Entry) = _
            rw [strConcat, strConcat, List.append_nil]
            by_cases hm : agentMergeable s.history.getLast? = true
            · rw [if_pos hm, if_pos hm]
            · rw [if_neg hm, if_neg hm]
      | cons t₂ ts₂ =>
          set s₁ : ConvState :=
            { s with
              status := .SPEAKING
              curOut := s.curOut ++ t
              history :=
                if agentMergeable s.history.getLast?
                then s.history.dropLast ++ [⟨.agent, s.curOut ++ t⟩]
                else s.history ++ [⟨.agent, s.curOut ++ t⟩] } with hs₁
          have hlast : s₁.history.getLast? = some ⟨.agent, s.curOut ++ t⟩ := by
            rw [hs₁]
            show (if agentMergeable s.history.getLast? then _ else _ : List Entry).getLast? = _
            by_cases hm : agentMergeable s.history.getLast? = true
            · rw [if_pos hm]; exact List.getLast?_concat _
            · rw [if_neg hm]; exact List.getLast?_concat _
          have hmerge : agentMergeable s₁.history.getLast? = true := by
            rw [hlast, agentMergeable]
            simp only [Bool.true_and]
            exact hok.1
          have hdrop : s₁.history.dropLast
              = (if agentMergeable s.history.getLast?
                 then s.history.dropLast else s.history) := by
            rw [hs₁]
            show (if agentMergeable s.history.getLast? then _ else _ : List Entry).dropLast = _
            by_cases hm : agentMergeable s.history.getLast? = true
            · rw [if_pos hm, if_pos hm]; exact List.dropLast_concat
            · rw [if_neg hm, if_neg hm]; exact List.dropLast_concat
          obtain ⟨ihc, ihh⟩ := ih (by simp) s₁ (by rw [hs₁]; exact hok.2)
          constructor
          · rw [ihc]
            show (s.curOut ++ t) ++ strConcat (t₂ :: ts₂) = s.curOut ++ strConcat (t :: t₂ :: ts₂)
            rw [List.append_assoc]
            rfl
          · rw [ihh]
            simp only [hmerge, if_true]
            rw [hdrop]
            show _ ++ [Entry.mk .agent ((s.curOut ++ t) ++ strConcat (t₂ :: ts₂))] = _
            rw [List.append_assoc]
            rfl

/-- Claim C4 (amended): (1) entries other than the last are never
modified by any event; (2) an image entry (text starting with `<img`;
trimmed, for the agent side) always starts a new entry and is never merged
into; (3,4) a run of consecutive partial-text events for one speaker
leaves exactly one entry for the run, but its text is the speaker's WHOLE
accumulated turn text `curIn/curOut ++ fragments` — the accumulator is not
reset when a non-text entry intervenes, so the entry's text is the
concatenation of all of that speaker's fragments of the turn so far, not
merely of the current run; and a product-list entry (`[PRODUCT_RESULTS]`,
speaker agent) is NOT protected: the merge guard only checks `<img`, so
agent text overwrites it (see the counterexample). -/
theorem transcript_merge_law :
    (∀ (s : ConvState) (e : SessionEvent),
        (step s e).history.take (s.history.length - 1)
          = s.history.take (s.history.length - 1))
    ∧ (∀ (s : ConvState) (t : List Char) (e : Entry),
        s.history.getLast? = some e → e.text.take 4 = "<img".toList →
        (handleInputText s t).history = s.history
          ∨ (handleInputText s t).history = s.history ++ [⟨.user, s.curIn ++ t⟩])
    ∧ (∀ (s : ConvState) (t : List Char) (e : Entry),
        s.history.getLast? = some e → (trimL e.text).take 4 = "<img".toList →
        (handleOutputText s t).history = s.history ++ [⟨.agent, s.curOut ++ t⟩])
    ∧ (∀ (ts : List (List Char)), ts ≠ [] → ∀ s : ConvState, s.greeting = false →
        accumOkUser s.curIn ts = true →
        (runEvents s (ts.map SessionEvent.inputText)).curIn = s.curIn ++ strConcat ts
        ∧ (runEvents s (ts.map SessionEvent.inputText)).history
            = (if userMergeable s.history.getLast?
               then s.history.dropLast else s.history)
              ++ [⟨.user, s.curIn ++ strConcat ts⟩])
    ∧ (∀ (ts : List (List Char)), ts ≠ [] → ∀ s : ConvState,
        accumOkAgent s.curOut ts = true →
        (runEvents s (ts.map SessionEvent.outputText)).curOut = s.curOut ++ strConcat ts
        ∧ (runEvents s (ts.map SessionEvent.outputText)).history
            = (if agentMergeable s.history.getLast?
               then s.history.dropLast else s.history)
              ++ [⟨.agent, s.curOut ++ strConcat ts⟩]) :=
  ⟨step_preserves_earlier_entries, inputText_image_protected, outputText_image_protected,
    userRun_merge_law, agentRun_merge_law⟩

/-- Witness for the amended claim C4 theorem: a two-fragment user run on a
fresh session collapses into one entry carrying the concatenation. -/
theorem transcript_merge_law_witness :
    (accumOkUser convDemo.curIn ["hi ".toList, "there".toList] = true
      ∧ convDemo.greeting = false
      ∧ (["hi ".toList, "there".toList] : List (List Char)) ≠ [])
    ∧ (runEvents convDemo
          (["hi ".toList, "there".toList].map SessionEvent.inputText)).history
        = (if userMergeable convDemo.history.getLast?
           then convDemo.history.dropLast else convDemo.history)
          ++ [⟨.user, convDemo.curIn ++ strConcat ["hi ".toList, "there".toList]⟩] :=
  ⟨⟨by decide, rfl, by decide⟩,
    (transcript_merge_law.2.2.2.1 ["hi ".toList, "there".toList] (by decide)
      convDemo rfl (by decide)).2⟩

/-- Claim C4 counterexample: a product-list entry is merged into.  The
agent speaks, the product search appends a `[PRODUCT_RESULTS]` entry, and
the next agent fragment overwrites that entry (the guard only protects
`<img` texts), so the product-list payload vanishes from the history —
refuting "a non-text entry (image or product list) ... is never merged
into". -/
theorem transcript_product_merge_counterexample :
    (runEvents convDemo
        [SessionEvent.outputText "Here are some shoes".toList,
         SessionEvent.newEntry .agent "[PRODUCT_RESULTS][]".toList,
         SessionEvent.outputText " for you".toList]).history
      = [⟨.agent, "Here are some shoes".toList⟩,
         ⟨.agent, "Here are some shoes for you".toList⟩]
    ∧ (⟨.agent, "[PRODUCT_RESULTS][]".toList⟩ : Entry)
        ∉ (runEvents convDemo
            [SessionEvent.outputText "Here are some shoes".toList,
             SessionEvent.newEntry .agent "[PRODUCT_RESULTS][]".toList,
             SessionEvent.outputText " for you".toList]).history :=
  ⟨by decide, by decide⟩

/-! ## Transport-text codec (`src/utils/audio.ts`)

`encode` builds a binary string whose char codes are the bytes and calls
`btoa`; `decode` calls `atob` and reads the char codes back.  Below, a byte
list stands for the binary string (char code = byte value) and `encodeB64`
/ `decodeB64` are the ECMAScript `btoa` / `atob` on it (standard base64
alphabet, `=` padding; `atob` is only ever applied here to `btoa` output,
which is always well-formed). -/

def b64Alphabet : List Char :=
  "ABCDEFGHIJKLMNOPQRSTUVWXYZabcdefghijklmnopqrstuvwxyz0123456789+/".toList

/-- Sextet value to base64 digit. -/
def b64Char (n : ℕ) : Char := b64Alphabet.getD n '?'

/-- Base64 digit back to its sextet value. -/
def b64Val (c : Char) : ℕ := b64Alphabet.indexOf c

/-- `btoa`: 3 bytes to 4 digits, with `=` padding for a 1- or 2-byte tail. -/
def encodeB64 : List ℕ → List Char
  | [] => []
  | [a] => [b64Char (a / 4), b64Char (a % 4 * 16), '=', '=']
  | [a, b] => [b64Char (a / 4), b64Char (a % 4 * 16 + b / 16), b64Char (b % 16 * 4), '=']
  | a :: b :: c :: rest =>
      b64Char (a / 4) :: b64Char (a % 4 * 16 + b / 16)
        :: b64Char (b % 16 * 4 + c / 64) :: b64Char (c % 64) :: encodeB64 rest

/-- `atob` (composed with per-char `charCodeAt`, which undoes the binary
string): 4 digits back to 3 bytes, honouring `=` padding. -/
def decodeB64 : List Char → List ℕ
  | c1 :: c2 :: c3 :: c4 :: rest =>
      if c3 = '=' then [b64Val c1 * 4 + b64Val c2 / 16]
      else if c4 = '=' then
        [b64Val c1 * 4 + b64Val c2 / 16, b64Val c2 % 16 * 16 + b64Val c3 / 4]
      else
        (b64Val c1 * 4 + b64Val c2 / 16)
          :: (b64Val c2 % 16 * 16 + b64Val c3 / 4)
          :: (b64Val c3 % 4 * 64 + b64Val c4)
          :: decodeB64 rest
  | _ => []

theorem b64Val_b64Char : ∀ n, n < 64 → b64Val (b64Char n) = n := by decide

theorem b64Char_ne_eq : ∀ n, n < 64 → b64Char n ≠ '=' := by decide

/-- Claim C9: the transport-text codec round-trips — for every byte list
`decode (encode bytes) = bytes`. -/
theorem decode_encode_roundtrip (l : List ℕ) (h : ∀ b ∈ l, b < 256) :
    decodeB64 (encodeB64 l) = l := by
  induction l using encodeB64.induct with
  | case1 => rfl
  | case2 a =>
      have ha : a < 256 := h a (by simp)
      rw [encodeB64, decodeB64]
      rw [if_pos rfl]
      rw [b64Val_b64Char _ (by omega), b64Val_b64Char _ (by omega)]
      rw [List.cons.injEq]
      constructor
      · omega
      · rfl
  | case3 a b =>
      have ha : a < 256 := h a (by simp)
      have hb : b < 256 := h b (by simp)
      rw [encodeB64, decodeB64]
      rw [if_neg (b64Char_ne_eq _ (by omega))]
      rw [if_pos rfl]
      rw [b64Val_b64Char _ (by omega), b64Val_b64Char _ (by omega),
        b64Val_b64Char _ (by omega)]
      rw [List.cons.injEq, List.cons.injEq]
      refine ⟨by omega, by omega, rfl⟩
  | case4 a b c rest ih =>
      have ha : a < 256 := h a (by simp)
      have hb : b < 256 := h b (by simp)
      have hc : c < 256 := h c (by simp)
      rw [encodeB64, decodeB64]
      rw [if_neg (b64Char_ne_eq _ (by omega))]
      rw [if_neg (b64Char_ne_eq _ (by omega))]
      rw [b64Val_b64Char _ (by omega), b64Val_b64Char _ (by omega),
        b64Val_b64Char _ (by omega), b64Val_b64Char _ (by omega)]
      rw [ih (fun x hx => h x (by simp [hx]))]
      rw [List.cons.injEq, List.cons.injEq, List.cons.injEq]
      refine ⟨by omega, by omega, by omega, rfl⟩

/-- Witness for claim C9 at a concrete byte list. -/
theorem decode_encode_roundtrip_witness :
    (∀ b ∈ [0, 255, 77, 10, 128], b < 256)
    ∧ decodeB64 (encodeB64 [0, 255, 77, 10, 128]) = [0, 255, 77, 10, 128] :=
  ⟨by decide, decode_encode_roundtrip [0, 255, 77, 10, 128] (by decide)⟩

/-! ## Audio capture conversion

`createBlobFromAudio` (`useAgent.ts`, second revision, lines 547-560):
clamp each float sample to [-1, 1], scale by 32767, store into an
`Int16Array` (ECMAScript ToInt16: truncate toward zero, then wrap into
[-32768, 32767]), reinterpret the array's buffer as bytes (little-endian),
base64-encode, and tag `audio/pcm;rate=16000`.  The first revision's
inline path (`useAgent.ts`, line 331) instead stores `x * 32768` with no
clamping. -/

/-- `Math.min` on finite values. -/
def jsMin (a b : ℚ) : ℚ := if a ≤ b then a else b

theorem jsMin_eq_min (a b : ℚ) : jsMin a b = min a b := by
  rw [jsMin]
  by_cases h : a ≤ b
  · rw [if_pos h, min_eq_left h]
  · rw [if_neg h, min_eq_right (le_of_not_le h)]

/-- `Math.max(-1, Math.min(1, x))`. -/
def clampQ (x : ℚ) : ℚ := jsMax (-1) (jsMin 1 x)

/-- ECMAScript ToIntegerOrInfinity: truncation toward zero. -/
def ratTrunc (q : ℚ) : ℤ := if 0 ≤ q then ⌊q⌋ else ⌈q⌉

/-- ECMAScript ToInt16 on an integer: wrap modulo 2^16 into the signed
16-bit range. -/
def toInt16Wrap (v : ℤ) : ℤ :=
  if v % 65536 < 32768 then v % 65536 else v % 65536 - 65536

/-- One sample through `createBlobFromAudio`: `int16[i] = s * 32767` after
clamping. -/
def toInt16Clamped (x : ℚ) : ℤ := toInt16Wrap (ratTrunc (clampQ x * 32767))

/-- One sample through the first revision's inline path:
`new Int16Array(inputData.map(x => x * 32768))`, no clamping. -/
def toInt16Unclamped (x : ℚ) : ℤ := toInt16Wrap (ratTrunc (x * 32768))

/-- The two little-endian bytes of an `Int16Array` element, as exposed by
`new Uint8Array(int16.buffer)`. -/
def int16ToBytesLE (v : ℤ) : List ℕ :=
  [(v % 65536).toNat % 256, (v % 65536).toNat / 256]

def packLE (l : List ℤ) : List ℕ := (l.map int16ToBytesLE).flatten

/-- The `Blob` sent to the session: base64 data plus MIME tag. -/
structure BlobV where
  data : List Char
  mimeType : List Char
deriving DecidableEq, Repr

def createBlobFromAudio (samples : List ℚ) : BlobV :=
  ⟨encodeB64 (packLE (samples.map toInt16Clamped)), "audio/pcm;rate=16000".toList⟩

/-- Reading an int16 back from its two little-endian bytes (as
`decodeAudioData`'s `new Int16Array(data.buffer)` does). -/
def bytePairToInt16 (b0 b1 : ℕ) : ℤ :=
  if b0 + 256 * b1 < 32768 then (b0 + 256 * b1 : ℤ)
  else (b0 + 256 * b1 : ℤ) - 65536

def unpackLE : List ℕ → List ℤ
  | b0 :: b1 :: rest => bytePairToInt16 b0 b1 :: unpackLE rest
  | _ => []

theorem toInt16Wrap_eq {v : ℤ} (h1 : -32768 ≤ v) (h2 : v < 32768) :
    toInt16Wrap v = v := by
  rw [toInt16Wrap]
  split_ifs with h <;> omega

theorem toInt16Clamped_bounds (x : ℚ) :
    -32767 ≤ toInt16Clamped x ∧ toInt16Clamped x ≤ 32767 := by
  have hlo : (-1 : ℚ) ≤ clampQ x := by
    rw [clampQ, jsMax_eq_max]
    exact le_max_left _ _
  have hhi : clampQ x ≤ 1 := by
    rw [clampQ, jsMax_eq_max, jsMin_eq_min]
    exact max_le (by norm_num) (min_le_left _ _)
  have hylo : (-32767 : ℚ) ≤ clampQ x * 32767 := by nlinarith
  have hyhi : clampQ x * 32767 ≤ 32767 := by nlinarith
  have htr_lo : (-32767 : ℤ) ≤ ratTrunc (clampQ x * 32767) := by
    rw [ratTrunc]
    split_ifs with h
    · have : (0 : ℤ) ≤ ⌊clampQ x * 32767⌋ := Int.floor_nonneg.mpr h
      omega
    · have h1 : (-32767 : ℚ) ≤ (⌈clampQ x * 32767⌉ : ℚ) :=
        le_trans hylo (Int.le_ceil _)
      exact_mod_cast h1
  have htr_hi : ratTrunc (clampQ x * 32767) ≤ 32767 := by
    rw [ratTrunc]
    split_ifs with h
    · have h1 : (⌊clampQ x * 32767⌋ : ℚ) ≤ 32767 :=
        le_trans (Int.floor_le _) hyhi
      exact_mod_cast h1
    · have : ⌈clampQ x * 32767⌉ ≤ 0 :=
        Int.ceil_le.mpr (by exact_mod_cast le_of_not_le h)
      omega
  rw [toInt16Clamped, toInt16Wrap_eq (by omega) (by omega)]
  exact ⟨htr_lo, htr_hi⟩

theorem unpack_pack {l : List ℤ} (h : ∀ v ∈ l, -32768 ≤ v ∧ v < 32768) :
    unpackLE (packLE l) = l := by
  induction l with
  | nil => rfl
  | cons v rest ih =>
      obtain ⟨h1, h2⟩ := h v (by simp)
      have hrest := ih (fun x hx => h x (by simp [hx]))
      rw [packLE, List.map_cons]
      show unpackLE ((v % 65536).toNat % 256
        :: (v % 65536).toNat / 256 :: packLE rest) = v :: rest
      rw [unpackLE, hrest, List.cons.injEq]
      refine ⟨?_, rfl⟩
      rw [bytePairToInt16]
      split_ifs with hcase <;> omega

/-- Claim C7 (amended): `createBlobFromAudio` tags its payload
`audio/pcm;rate=16000` and its data is exactly the base64 encoding of the
clamped, 32767-scaled, little-endian-packed samples; every sample value it
encodes lies in [-32767, 32767]; and the little-endian packing is lossless
on the signed 16-bit range.  The first revision's inline capture path
(`x * 32768`, no clamp) violates the bound: see the counterexample. -/
theorem captureBlob_props (samples : List ℚ) :
    (createBlobFromAudio samples).mimeType = "audio/pcm;rate=16000".toList
    ∧ (createBlobFromAudio samples).data
        = encodeB64 (packLE (samples.map toInt16Clamped))
    ∧ (∀ x : ℚ, -32767 ≤ toInt16Clamped x ∧ toInt16Clamped x ≤ 32767)
    ∧ (∀ l : List ℤ, (∀ v ∈ l, -32768 ≤ v ∧ v < 32768) →
        unpackLE (packLE l) = l) :=
  ⟨rfl, rfl, toInt16Clamped_bounds, fun _ h => unpack_pack h⟩

/-- Witness for the amended claim C7 theorem: the packing round-trips on a
concrete in-range sample list. -/
theorem captureBlob_props_witness :
    (∀ v ∈ ([100, -32768, 32767] : List ℤ), -32768 ≤ v ∧ v < 32768)
    ∧ unpackLE (packLE [100, -32768, 32767]) = [100, -32768, 32767] :=
  ⟨by decide, (captureBlob_props []).2.2.2 [100, -32768, 32767] (by decide)⟩

/-- Claim C7 counterexample: the first revision's unclamped capture path
maps the full-scale sample 1.0 to 1.0 * 32768 = 32768, which ToInt16 wraps
to -32768 — outside the claimed [-32767, 32767] range. -/
theorem capture_unclamped_counterexample :
    toInt16Unclamped 1 = -32768 ∧ ¬ (-32767 ≤ toInt16Unclamped 1) := by
  have h : toInt16Unclamped 1 = -32768 := by
    rw [toInt16Unclamped]
    have h1 : (1 : ℚ) * 32768 = ((32768 : ℤ) : ℚ) := by norm_num
    rw [h1, ratTrunc, if_pos (by positivity), Int.floor_intCast, toInt16Wrap]
    norm_num
  refine ⟨h, ?_⟩
  rw [h]
  norm_num

/-! ## Tool dispatcher: scheduleEvent and setAlarm
(`src/services/agentFunctions.ts`, first revision)

`scheduleEvent` parses `new Date(date + "T" + time)`; an invalid result
throws and the catch returns a corrective message.  On success it persists
through the store (`db.addEvent`, which returns the inserted entity with
the same timestamp, or null) and returns a message containing
`dateTime.toLocaleString()` plus the entity.  The `Date` constructor is
embedded by its denotation on the grammar the tool declares
(`YYYY-MM-DD` / `HH:MM` 24-hour): digit fields of the right width with
month, day, hour, minute in range parse to a local wall-clock date-time;
anything else is an Invalid Date.  `toLocaleString` is locale-dependent,
so it is an abstract parameter `fmt`.  `db` success is a parameter. -/

/-- `String.prototype.split(sep)` for a one-character separator. -/
def splitOnChar (sep : Char) : List Char → List (List Char)
  | [] => [[]]
  | c :: rest =>
      let r := splitOnChar sep rest
      if c = sep then [] :: r
      else
        match r with
        | [] => [[c]]
        | g :: gs => (c :: g) :: gs

/-- Value of a digit string. -/
def digitsVal (s : List Char) : ℕ := s.foldl (fun a c => a * 10 + (c.toNat - 48)) 0

/-- A nonempty all-digit field. -/
def parseDigits (s : List Char) : Option ℕ :=
  if s ≠ [] ∧ s.all Char.isDigit then some (digitsVal s) else none

def isLeapYear (y : ℕ) : Bool := (y % 4 = 0 && !(y % 100 = 0)) || y % 400 = 0

def daysInMonth (y m : ℕ) : ℕ :=
  if m = 2 then (if isLeapYear y then 29 else 28)
  else if m = 4 ∨ m = 6 ∨ m = 9 ∨ m = 11 then 30 else 31

/-- A local wall-clock date-time (what the created entity's timestamp
denotes, to the minute; seconds and milliseconds are zero). -/
structure DateTimeV where
  year : ℕ
  month : ℕ
  day : ℕ
  hour : ℕ
  minute : ℕ
deriving DecidableEq, Repr

/-- `new Date(date + "T" + time)` on the declared grammar: `some` local
date-time, or `none` for an Invalid Date (`isNaN(dateTime.getTime())`). -/
def parseIsoLocal (date time : List Char) : Option DateTimeV :=
  match splitOnChar '-' date, splitOnChar ':' time with
  | [ys, ms, ds], [hs, mins] =>
      match parseDigits ys, parseDigits ms, parseDigits ds,
          parseDigits hs, parseDigits mins with
      | some y, some mo, some d, some h, some mi =>
          if ys.length = 4 ∧ ms.length = 2 ∧ ds.length = 2
              ∧ hs.length = 2 ∧ mins.length = 2
              ∧ 1 ≤ mo ∧ mo ≤ 12 ∧ 1 ≤ d ∧ d ≤ daysInMonth y mo
              ∧ h ≤ 23 ∧ mi ≤ 59
          then some ⟨y, mo, d, h, mi⟩ else none
      | _, _, _, _, _ => none
  | _, _ => none

structure CalendarEventV where
  title : List Char
  dateTime : DateTimeV
deriving DecidableEq, Repr

structure SchedEventResult where
  message : List Char
  event : Option CalendarEventV
deriving DecidableEq, Repr

def scheduleEvent (fmt : DateTimeV → List Char) (userId : Option (List Char))
    (dbOk : Bool) (title date time : List Char) : SchedEventResult :=
  match userId with
  | none => ⟨"I can't schedule an event without a logged-in user.".toList, none⟩
  | some _ =>
      match parseIsoLocal date time with
      | none =>
          ⟨"I had a problem scheduling that event. Please check the details or try again.".toList,
            none⟩
      | some dt =>
          if dbOk then
            ⟨"Event \"".toList ++ title ++ "\" scheduled for ".toList
                ++ fmt dt ++ ".".toList,
              some ⟨title, dt⟩⟩
          else
            ⟨"Failed to save the event. The database did not confirm the action.".toList,
              none⟩

theorem isSubstring_of_prefix {w s : List Char} (h : s.take w.length = w) :
    isSubstring w s = true := by
  cases s with
  | nil =>
      rw [List.take_nil] at h
      rw [isSubstring]
      simp [← h]
  | cons c rest =>
      rw [isSubstring, h]
      simp

theorem isSubstring_mid (p w q : List Char) : isSubstring w (p ++ (w ++ q)) = true := by
  induction p with
  | nil =>
      rw [List.nil_append]
      exact isSubstring_of_prefix (List.take_left w q)
  | cons c p' ih =>
      rw [List.cons_append, isSubstring, ih, Bool.or_true]

/-- Claim C5: for `{title, date: "2025-03-10", time: "09:00"}` (with the
store confirming the write), the dispatcher's message contains the
formatted local timestamp and the created entity's timestamp is
2025-03-10T09:00 local; for `date: "not-a-date"` it returns the corrective
message and no entity — the parse error never propagates (the function is
total). -/
theorem scheduleEvent_roundtrip (fmt : DateTimeV → List Char)
    (uid title : List Char) :
    (isSubstring (fmt ⟨2025, 3, 10, 9, 0⟩)
        (scheduleEvent fmt (some uid) true title
          "2025-03-10".toList "09:00".toList).message = true
      ∧ (scheduleEvent fmt (some uid) true title
          "2025-03-10".toList "09:00".toList).event
        = some ⟨title, ⟨2025, 3, 10, 9, 0⟩⟩)
    ∧ ((scheduleEvent fmt (some uid) true title
          "not-a-date".toList "09:00".toList).message
        = "I had a problem scheduling that event. Please check the details or try again.".toList
      ∧ (scheduleEvent fmt (some uid) true title
          "not-a-date".toList "09:00".toList).event = none) := by
  have hparse : parseIsoLocal "2025-03-10".toList "09:00".toList
      = some ⟨2025, 3, 10, 9, 0⟩ := by decide
  have hbad : parseIsoLocal "not-a-date".toList "09:00".toList = none := by decide
  refine ⟨⟨?_, ?_⟩, ?_, ?_⟩
  · show isSubstring _ (scheduleEvent _ _ _ _ _ _).message = true
    rw [scheduleEvent, hparse]
    show isSubstring (fmt ⟨2025, 3, 10, 9, 0⟩)
      ("Event \"".toList ++ title ++ "\" scheduled for ".toList
        ++ fmt ⟨2025, 3, 10, 9, 0⟩ ++ ".".toList) = true
    rw [List.append_assoc ("Event \"".toList ++ title ++ "\" scheduled for ".toList)]
    exact isSubstring_mid _ _ _
  · rw [scheduleEvent, hparse]
    rfl
  · rw [scheduleEvent, hbad]
  · rw [scheduleEvent, hbad]

/-! ## setAlarm (`src/services/agentFunctions.ts`, first revision,
lines 110-131)

`time.split(':')` destructures into hours and minutes which go through
`Number` (embedded on the inputs that occur: the empty string is 0, a
digit string is its value, anything else is NaN and the `isNaN` guard
throws into the catch branch).  `alarmTime` is today's date with
`setHours(hours, minutes, 0, 0)` — hour overflow rolls into later days —
and is pushed one day forward when `alarmTime <= now`.  Instants are
(day index, milliseconds into the day) with `nowMs < 86400000`; both
`new Date()` calls are taken at the same instant. -/

/-- `Number(s)` on the fields `split(':')` can produce here. -/
def jsNumberNat (s : List Char) : Option ℕ :=
  if s = [] then some 0
  else if s.all Char.isDigit then some (digitsVal s) else none

/-- `const [hours, minutes] = time.split(':').map(Number)` plus the
`isNaN` guard; a missing minutes field is `Number(undefined) = NaN`. -/
def parseHM (time : List Char) : Option (ℕ × ℕ) :=
  match splitOnChar ':' time with
  | hs :: ms :: _ =>
      match jsNumberNat hs, jsNumberNat ms with
      | some h, some m => some (h, m)
      | _, _ => none
  | _ => none

/-- Today at `h:m:00.000`, rolled one day forward when not after now. -/
def setAlarmCore (nowDay nowMs h m : ℕ) : ℕ × ℕ :=
  let t := (h * 3600 + m * 60) * 1000
  let d := nowDay + t / 86400000
  let r := t % 86400000
  if d * 86400000 + r ≤ nowDay * 86400000 + nowMs then (d + 1, r) else (d, r)

structure AlarmV where
  label : List Char
  timeDay : ℕ
  timeMs : ℕ
deriving DecidableEq, Repr

structure SetAlarmResult where
  message : List Char
  alarm : Option AlarmV
deriving DecidableEq, Repr

def setAlarm (fmtTime : ℕ × ℕ → List Char) (userId : Option (List Char))
    (nowDay nowMs : ℕ) (dbOk : Bool) (label time : List Char) : SetAlarmResult :=
  match userId with
  | none => ⟨"I can't set an alarm without a logged-in user.".toList, none⟩
  | some _ =>
      match parseHM time with
      | none =>
          ⟨"I had a problem setting that alarm. Please check the time or try again.".toList,
            none⟩
      | some (h, m) =>
          let dt := setAlarmCore nowDay nowMs h m
          if dbOk then
            ⟨"Alarm \"".toList ++ label ++ "\" set for ".toList
                ++ fmtTime dt ++ ".".toList,
              some ⟨label, dt.1, dt.2⟩⟩
          else
            ⟨"Failed to save the alarm. The database did not confirm the action.".toList,
              none⟩

/-- Claim C10: for a well-formed HH:MM argument (h ≤ 23, m ≤ 59, as
parsed), with the store confirming, setAlarm creates an alarm whose
timestamp has seconds and milliseconds zero, equals today's h:m, is
strictly in the future at the moment of creation, and is rolled forward by
exactly one day iff that time is not after the current time. -/
theorem setAlarm_strictly_future (fmtTime : ℕ × ℕ → List Char)
    (uid label time : List Char) (nowDay nowMs h m : ℕ)
    (hp : parseHM time = some (h, m))
    (hh : h ≤ 23) (hm : m ≤ 59) (hnow : nowMs < 86400000) :
    (setAlarm fmtTime (some uid) nowDay nowMs true label time).alarm
        = some ⟨label, (setAlarmCore nowDay nowMs h m).1,
            (setAlarmCore nowDay nowMs h m).2⟩
    ∧ (setAlarmCore nowDay nowMs h m).2 = (h * 3600 + m * 60) * 1000
    ∧ nowDay * 86400000 + nowMs
        < (setAlarmCore nowDay nowMs h m).1 * 86400000
            + (setAlarmCore nowDay nowMs h m).2
    ∧ (setAlarmCore nowDay nowMs h m).1
        = nowDay + (if (h * 3600 + m * 60) * 1000 ≤ nowMs then 1 else 0) := by
  refine ⟨?_, ?_, ?_, ?_⟩
  · rw [setAlarm, hp]
    rfl
  · rw [setAlarmCore]
    split_ifs <;> simp <;> omega
  · rw [setAlarmCore]
    split_ifs with hle <;> simp only [] <;> omega
  · rw [setAlarmCore]
    split_ifs with h1 h2 h3 <;> simp only [] <;> omega

/-- Witness for claim C10: "09:00" at 10:00 on day 10 rolls to day 11. -/
theorem setAlarm_strictly_future_witness :
    (parseHM "09:00".toList = some (9, 0) ∧ 9 ≤ 23 ∧ 0 ≤ 59 ∧ 36000000 < 86400000)
    ∧ 10 * 86400000 + 36000000
        < (setAlarmCore 10 36000000 9 0).1 * 86400000
            + (setAlarmCore 10 36000000 9 0).2 :=
  ⟨⟨by decide, by decide, by decide, by decide⟩,
    (setAlarm_strictly_future (fun _ => []) [] [] "09:00".toList
      10 36000000 9 0 (by decide) (by decide) (by decide) (by decide)).2.2.1⟩
